import Mathlib

/-!
Verification development for the `blockstore-s3` package of filebase/js-stores.

The embedding models, faithfully to the JavaScript sources:

* the `multiformats` base-32-upper multibase codec used as the default
  `base` of both sharding strategies (`rfc4648` bit-packing encoder and
  decoder, multibase prefix `B`);
* unsigned LEB128 varints, multihashes and `CID.decode` from `multiformats`
  (the shape of binary content identifiers that `sharding.js` relies on);
* the `NextToLast` and `FlatDirectory` sharding strategies of
  `src/sharding.js`;
* the `S3Blockstore` operations of `src/index.js` (`put`, `get`, `has`,
  `delete`, `getAll`, `open`), with the S3 client as an abstract
  collaborator whose responses are inputs, and the repository's own
  in-memory S3 mock.

Bytes are modelled as `Nat` values below 256, JavaScript strings as
`List Char`.
-/

namespace JsStores

/-! ## Bit-level helpers

`bitsUnder k n` is the list of the low `k` bits of `n`, most significant
first; `natOfBits` is its inverse. These give the specification view of the
rfc4648 bit packing used by the base-32 codec. -/

def bitsUnder : Nat → Nat → List Bool
  | 0, _ => []
  | k + 1, n => n.testBit k :: bitsUnder k n

def natOfBits (bs : List Bool) : Nat :=
  bs.foldl (fun acc b => 2 * acc + (if b then 1 else 0)) 0

theorem bitsUnder_length (k n : Nat) : (bitsUnder k n).length = k := by
  induction k generalizing n with
  | zero => rfl
  | succ k ih => simp [bitsUnder, ih]

theorem natOfBits_append (a b : List Bool) :
    natOfBits (a ++ b) = natOfBits a * 2 ^ b.length + natOfBits b := by
  induction b using List.reverseRecOn with
  | nil => simp [natOfBits]
  | append_singleton b x ih =>
      rw [← List.append_assoc]
      simp only [natOfBits, List.foldl_append, List.foldl_cons, List.foldl_nil] at *
      rw [ih, List.length_append, List.length_cons, List.length_nil]
      ring

theorem natOfBits_replicate_false (k : Nat) :
    natOfBits (List.replicate k false) = 0 := by
  induction k with
  | zero => rfl
  | succ k ih =>
      rw [List.replicate_succ', natOfBits_append, ih]
      simp [natOfBits]

theorem bitsUnder_mod (k n : Nat) : bitsUnder k (n % 2 ^ k) = bitsUnder k n := by
  induction k generalizing n with
  | zero => rfl
  | succ k ih =>
      simp only [bitsUnder, List.cons.injEq]
      refine ⟨?_, ?_⟩
      · rw [Nat.testBit_mod_two_pow]
        simp
      · rw [← ih n, ← ih (n % 2 ^ (k + 1))]
        congr 1
        rw [Nat.mod_mod_of_dvd]
        exact pow_dvd_pow 2 (Nat.le_succ k)

theorem natOfBits_bitsUnder (k n : Nat) : natOfBits (bitsUnder k n) = n % 2 ^ k := by
  induction k generalizing n with
  | zero => simp [bitsUnder, natOfBits, Nat.mod_one]
  | succ k ih =>
      have h0 : bitsUnder (k + 1) n = [n.testBit k] ++ bitsUnder k n := rfl
      rw [h0, natOfBits_append, bitsUnder_length, ih]
      have hsplit : n % 2 ^ (k + 1) = (n / 2 ^ k) % 2 * 2 ^ k + n % 2 ^ k := by
        rw [Nat.mod_pow_succ]
        ring
      rw [hsplit, Nat.testBit_to_div_mod]
      rcases Nat.mod_two_eq_zero_or_one (n / 2 ^ k) with h | h <;>
        simp [natOfBits, h]

theorem bitsUnder_add (a b n : Nat) :
    bitsUnder (a + b) n = bitsUnder a (n / 2 ^ b) ++ bitsUnder b n := by
  induction a with
  | zero => simp [bitsUnder]
  | succ a ih =>
      have h1 : a + 1 + b = (a + b) + 1 := by omega
      rw [h1]
      simp only [bitsUnder]
      rw [ih]
      simp only [List.cons_append, List.cons.injEq]
      refine ⟨?_, trivial⟩
      rw [← Nat.shiftRight_eq_div_pow, Nat.testBit_shiftRight, Nat.add_comm b a]

theorem natOfBits_lt (bs : List Bool) : natOfBits bs < 2 ^ bs.length := by
  induction bs using List.reverseRecOn with
  | nil => simp [natOfBits]
  | append_singleton b x ih =>
      rw [natOfBits_append]
      simp only [List.length_append, List.length_cons, List.length_nil]
      have hx : natOfBits [x] ≤ 1 := by cases x <;> simp [natOfBits]
      have h2 : natOfBits b * 2 ^ 1 + natOfBits [x] < 2 ^ (b.length + 1) := by
        have := ih
        rw [pow_succ]
        omega
      simpa using h2

theorem bitsUnder_natOfBits (bs : List Bool) :
    bitsUnder bs.length (natOfBits bs) = bs := by
  induction bs with
  | nil => rfl
  | cons b rest ih =>
      have hsplit : natOfBits (b :: rest) =
          (if b then 1 else 0) * 2 ^ rest.length + natOfBits rest := by
        have h1 : (b :: rest) = [b] ++ rest := rfl
        rw [h1, natOfBits_append]
        simp [natOfBits]
      have hlow : natOfBits (b :: rest) % 2 ^ rest.length = natOfBits rest := by
        rw [hsplit, Nat.mul_comm, Nat.mul_add_mod,
          Nat.mod_eq_of_lt (natOfBits_lt rest)]
      have hdiv : natOfBits (b :: rest) / 2 ^ rest.length = if b then 1 else 0 := by
        rw [hsplit, Nat.mul_comm ((if b then 1 else 0)) _, Nat.mul_add_div
          (Nat.pos_pow_of_pos _ (by norm_num)),
          Nat.div_eq_of_lt (natOfBits_lt rest)]
        omega
      simp only [List.length_cons, bitsUnder, List.cons.injEq]
      refine ⟨?_, ?_⟩
      · rw [Nat.testBit_to_div_mod, hdiv]
        cases b <;> simp
      · rw [← bitsUnder_mod, hlow]
        exact ih

/-! ## The base-32-upper multibase codec

Embedding of `multiformats/bases/base32.base32upper`, the default `base` of
both sharding strategies: the `rfc4648` encoder/decoder with
`bitsPerChar = 5`, alphabet `ABCDEFGHIJKLMNOPQRSTUVWXYZ234567`, no padding,
multibase prefix character `B`. Characters are represented by their 5-bit
values (`b32chr`/`b32val` convert to and from `Char`). -/

def b32alphabet : List Char := "ABCDEFGHIJKLMNOPQRSTUVWXYZ234567".toList

def b32chr (v : Nat) : Char := b32alphabet.getD v 'A'

def b32valGo : List Char → Nat → Char → Option Nat
  | [], _, _ => none
  | a :: rest, i, c => if a = c then some i else b32valGo rest (i + 1) c

/-- The `codes` lookup of the rfc4648 decoder: alphabet index of a character,
`none` for a character outside the alphabet. -/
def b32val (c : Char) : Option Nat := b32valGo b32alphabet 0 c

/-- The inner `while (bits > bitsPerChar)` loop of the rfc4648 encoder: emit
5-bit characters from the top of `buffer` while more than 5 bits are pending.
The loop runs at most `fuel` times; since every iteration removes 5 bits,
`fuel = bits` always suffices and `b32emit` below instantiates it so. -/
def b32emitGo : Nat → Nat → Nat → List Nat × Nat
  | 0, _, bits => ([], bits)
  | fuel + 1, buffer, bits =>
      if 5 < bits then
        let r := b32emitGo fuel buffer (bits - 5)
        ((buffer >>> (bits - 5)) % 32 :: r.1, r.2)
      else ([], bits)

def b32emit (buffer bits : Nat) : List Nat × Nat := b32emitGo bits buffer bits

/-- The rfc4648 encoder loop over the input bytes (`buffer`/`bits` state as in
the source; the source keeps `buffer` as a JS 32-bit integer, but only its
low `bits + 8 ≤ 13` bits are ever read, so plain `Nat` arithmetic emits the
same characters). After the loop the partial character, if any, is flushed
left-aligned. -/
def b32encodeGo : List Nat → Nat → Nat → List Nat
  | [], buffer, bits => if bits ≠ 0 then [(buffer <<< (5 - bits)) % 32] else []
  | d :: ds, buffer, bits =>
      let buffer' := (buffer <<< 8) ||| d
      let r := b32emit buffer' (bits + 8)
      r.1 ++ b32encodeGo ds buffer' r.2

def rfc4648Encode (data : List Nat) : List Char :=
  (b32encodeGo data 0 0).map b32chr

/-- `base32upper.encoder.encode`: multibase prefix `B` followed by the
rfc4648 characters. -/
def base32upperEncode (data : List Nat) : List Char :=
  'B' :: rfc4648Encode data

/-- The rfc4648 decoder strips trailing `=` padding characters before
parsing (it does so even for bases that never emit padding). -/
def dropTrailingEq (s : List Char) : List Char :=
  (s.reverse.dropWhile (fun c => c = '=')).reverse

/-- The rfc4648 decoder loop: accumulate 5-bit values, emit a byte whenever
8 or more bits are pending. Returns the bytes together with the final
`buffer`/`bits` state, which the wrapper checks for a clean end. -/
def b32decodeGo : List Nat → Nat → Nat → List Nat × Nat × Nat
  | [], buffer, bits => ([], buffer, bits)
  | v :: vs, buffer, bits =>
      let buffer' := (buffer <<< 5) ||| v
      let bits' := bits + 5
      if 8 ≤ bits' then
        let r := b32decodeGo vs buffer' (bits' - 8)
        ((buffer' >>> (bits' - 8)) % 256 :: r.1, r.2)
      else b32decodeGo vs buffer' bits'

/-- The final-state check and result of the rfc4648 decoder, split out for
reasoning: fail when 5 or more bits are left pending or a pending bit is
nonzero (`if (bits >= bitsPerChar || (0xff & (buffer << (8 - bits))) !== 0)
throw`), otherwise return the bytes. -/
def rfc4648DecodeVals (vals : List Nat) : Option (List Nat) :=
  if 5 ≤ (b32decodeGo vals 0 0).2.2
      ∨ ((b32decodeGo vals 0 0).2.1 <<< (8 - (b32decodeGo vals 0 0).2.2)) % 256 ≠ 0 then
    none
  else
    some (b32decodeGo vals 0 0).1

def rfc4648Decode (s : List Char) : Option (List Nat) :=
  match (dropTrailingEq s).mapM b32val with
  | none => none
  | some vals => rfc4648DecodeVals vals

/-- `base32upper.decoder.decode`: requires the multibase prefix `B` as the
first character (`if (text[0] === this.prefix)`), then applies the rfc4648
decoder to the rest. -/
def base32upperDecode (s : List Char) : Option (List Nat) :=
  match s with
  | c :: rest => if c = 'B' then rfc4648Decode rest else none
  | [] => none

/-! ## Specification view of the rfc4648 bit packing -/

/-- Chunk a bit stream into 5-bit characters, zero-padding the trailing
partial chunk: what the encoder emits. -/
def specEnc (bs : List Bool) : List Nat :=
  if bs = [] then []
  else if _h5 : 5 ≤ bs.length then natOfBits (bs.take 5) :: specEnc (bs.drop 5)
  else [natOfBits (bs ++ List.replicate (5 - bs.length) false)]
termination_by bs.length
decreasing_by simp [List.length_drop]; omega

/-- Read the full 8-bit chunks of a bit stream as bytes, ignoring a trailing
partial chunk: what the decoder outputs. -/
def specDec (bs : List Bool) : List Nat :=
  if _h8 : 8 ≤ bs.length then natOfBits (bs.take 8) :: specDec (bs.drop 8) else []
termination_by bs.length
decreasing_by simp [List.length_drop]; omega

/-- The bits of a byte stream, each byte most significant bit first. -/
def bytesBits (data : List Nat) : List Bool :=
  (data.map (bitsUnder 8)).flatten

/-- The bits carried by a character-value stream. -/
def valsBits (vals : List Nat) : List Bool :=
  (vals.map (bitsUnder 5)).flatten

/-! ## Encoder correspondence -/

theorem testBit_mulPow_add (a d k : Nat) (hd : d < 2 ^ k) (i : Nat) :
    (a * 2 ^ k + d).testBit i = if i < k then d.testBit i else a.testBit (i - k) := by
  by_cases h : i < k
  · rw [if_pos h, Nat.testBit_to_div_mod, Nat.testBit_to_div_mod]
    have e1 : a * 2 ^ k = 2 ^ i * (a * 2 ^ (k - i)) := by
      rw [Nat.mul_comm (2 ^ i) _, Nat.mul_assoc, ← pow_add]
      congr 2
      omega
    have e2 : (a * 2 ^ k + d) / 2 ^ i = a * 2 ^ (k - i) + d / 2 ^ i := by
      rw [e1, Nat.mul_add_div (Nat.pos_pow_of_pos _ (by norm_num))]
    have e3 : a * 2 ^ (k - i) = 2 * (a * 2 ^ (k - i - 1)) := by
      obtain ⟨m, hm⟩ : ∃ m, k - i = m + 1 := ⟨k - i - 1, by omega⟩
      rw [hm]
      have hm1 : m + 1 - 1 = m := rfl
      rw [hm1, pow_succ]
      ring
    rw [e2, e3, Nat.mul_add_mod]
  · rw [if_neg h, Nat.testBit_to_div_mod, Nat.testBit_to_div_mod]
    have e1 : (2 : Nat) ^ i = 2 ^ k * 2 ^ (i - k) := by
      rw [← pow_add]
      congr 1
      omega
    have e2 : (a * 2 ^ k + d) / 2 ^ k = a := by
      rw [Nat.mul_comm, Nat.mul_add_div (Nat.pos_pow_of_pos _ (by norm_num)),
        Nat.div_eq_of_lt hd, Nat.add_zero]
    rw [e1, ← Nat.div_div_eq_div_mul, e2]

theorem shiftLeft_lor_eq (a d k : Nat) (hd : d < 2 ^ k) :
    (a <<< k) ||| d = a * 2 ^ k + d := by
  apply Nat.eq_of_testBit_eq
  intro i
  rw [Nat.testBit_lor, Nat.testBit_shiftLeft, testBit_mulPow_add a d k hd i]
  by_cases h : i < k
  · have h2 : ¬ (k ≤ i) := by omega
    simp [if_pos h, h2]
  · have h2 : k ≤ i := by omega
    have hdi : d.testBit i = false :=
      Nat.testBit_eq_false_of_lt
        (lt_of_lt_of_le hd (Nat.pow_le_pow_right (by norm_num) h2))
    simp [if_neg h, h2, hdi]

theorem specEnc_peel (c rest : List Bool) (hc : c.length = 5) :
    specEnc (c ++ rest) = natOfBits c :: specEnc rest := by
  rw [specEnc]
  have hne : c ++ rest ≠ [] := by
    intro h
    apply congrArg List.length at h
    simp [hc] at h
  have hlen : 5 ≤ (c ++ rest).length := by
    rw [List.length_append, hc]
    omega
  rw [if_neg hne, dif_pos hlen]
  congr 1
  · rw [← hc, List.take_left]
  · rw [← hc, List.drop_left]

theorem b32emitGo_spec (fuel : Nat) : ∀ bits buffer rest, 0 < bits →
    bits ≤ 5 * fuel + 5 →
    (b32emitGo fuel buffer bits).1 ++
        specEnc (bitsUnder (b32emitGo fuel buffer bits).2 buffer ++ rest)
      = specEnc (bitsUnder bits buffer ++ rest)
    ∧ 0 < (b32emitGo fuel buffer bits).2 ∧ (b32emitGo fuel buffer bits).2 ≤ 5 := by
  induction fuel with
  | zero =>
      intro bits buffer rest h0 h5
      simp only [b32emitGo]
      refine ⟨by simp, h0, by omega⟩
  | succ fuel ih =>
      intro bits buffer rest h0 h5
      by_cases h : 5 < bits
      · simp only [b32emitGo, if_pos h]
        obtain ⟨ih1, ih2, ih3⟩ := ih (bits - 5) buffer rest (by omega) (by omega)
        refine ⟨?_, ih2, ih3⟩
        have hsplit : bitsUnder bits buffer
            = bitsUnder 5 (buffer / 2 ^ (bits - 5)) ++ bitsUnder (bits - 5) buffer := by
          rw [← bitsUnder_add]
          congr 1
          omega
        rw [hsplit, List.append_assoc,
          specEnc_peel _ _ (bitsUnder_length 5 _), natOfBits_bitsUnder,
          List.cons_append, ih1, Nat.shiftRight_eq_div_pow]
        norm_num
      · simp only [b32emitGo, if_neg h]
        refine ⟨by simp, h0, by omega⟩

theorem b32encodeGo_spec (data : List Nat) : ∀ buffer bits, bits ≤ 5 →
    (∀ d ∈ data, d < 256) →
    b32encodeGo data buffer bits = specEnc (bitsUnder bits buffer ++ bytesBits data) := by
  induction data with
  | nil =>
      intro buffer bits hb _
      simp only [b32encodeGo, bytesBits, List.map_nil, List.flatten_nil, List.append_nil]
      by_cases h0 : bits = 0
      · subst h0
        simp [bitsUnder, specEnc]
      · rw [if_pos h0]
        rcases Nat.lt_or_ge bits 5 with h5 | h5
        · rw [specEnc]
          have hne : bitsUnder bits buffer ≠ [] := by
            intro h
            apply congrArg List.length at h
            rw [bitsUnder_length] at h
            simp at h
            omega
          have hlt : ¬ 5 ≤ (bitsUnder bits buffer).length := by
            rw [bitsUnder_length]
            omega
          rw [if_neg hne, dif_neg hlt]
          congr 1
          rw [natOfBits_append, natOfBits_replicate_false, natOfBits_bitsUnder,
            List.length_replicate, Nat.add_zero, bitsUnder_length, Nat.shiftLeft_eq]
          have h32 : (32 : Nat) = 2 ^ bits * 2 ^ (5 - bits) := by
            rw [← pow_add]
            have he : bits + (5 - bits) = 5 := by omega
            rw [he]
            norm_num
          rw [h32, Nat.mul_mod_mul_right]
        · have h5' : bits = 5 := by omega
          subst h5'
          have hfull : bitsUnder 5 buffer
              = bitsUnder 5 buffer ++ ([] : List Bool) := by simp
          rw [hfull, specEnc_peel _ _ (bitsUnder_length 5 _), natOfBits_bitsUnder]
          rw [specEnc]
          simp [Nat.shiftLeft_eq]
  | cons d ds ih =>
      intro buffer bits hb hall
      simp only [b32encodeGo, b32emit]
      have hd : d < 256 := hall d (List.mem_cons_self d ds)
      have hbuf : (buffer <<< 8) ||| d = buffer * 2 ^ 8 + d :=
        shiftLeft_lor_eq buffer d 8 (by norm_num [hd])
      obtain ⟨e1, e2, e3⟩ := b32emitGo_spec (bits + 8) (bits + 8) ((buffer <<< 8) ||| d)
        (bytesBits ds) (by omega) (by omega)
      rw [ih _ _ e3 (fun x hx => hall x (List.mem_cons_of_mem _ hx)), e1]
      congr 1
      have hsplit : bitsUnder (bits + 8) ((buffer <<< 8) ||| d)
          = bitsUnder bits buffer ++ bitsUnder 8 d := by
        rw [bitsUnder_add]
        congr 1
        · rw [hbuf, Nat.mul_comm, Nat.mul_add_div (by norm_num),
            Nat.div_eq_of_lt (by norm_num [hd] : d < 2 ^ 8), Nat.add_zero]
        · rw [← bitsUnder_mod 8 ((buffer <<< 8) ||| d), hbuf, Nat.mul_comm,
            Nat.mul_add_mod, Nat.mod_eq_of_lt (by norm_num [hd] : d < 2 ^ 8)]
      rw [hsplit, List.append_assoc]
      rfl

/-! ## Decoder correspondence -/

theorem valsBits_cons (v : Nat) (vs : List Nat) :
    valsBits (v :: vs) = bitsUnder 5 v ++ valsBits vs := by
  simp [valsBits]

theorem bytesBits_cons (d : Nat) (ds : List Nat) :
    bytesBits (d :: ds) = bitsUnder 8 d ++ bytesBits ds := by
  simp [bytesBits]

theorem valsBits_length (vals : List Nat) :
    (valsBits vals).length = 5 * vals.length := by
  induction vals with
  | nil => rfl
  | cons v vs ih =>
      rw [valsBits_cons, List.length_append, bitsUnder_length, ih,
        List.length_cons]
      ring

theorem bytesBits_length (data : List Nat) :
    (bytesBits data).length = 8 * data.length := by
  induction data with
  | nil => rfl
  | cons d ds ih =>
      rw [bytesBits_cons, List.length_append, bitsUnder_length, ih,
        List.length_cons]
      ring

theorem bitsUnder_shiftLor (k j buffer d : Nat) (hd : d < 2 ^ j) :
    bitsUnder (k + j) ((buffer <<< j) ||| d) = bitsUnder k buffer ++ bitsUnder j d := by
  rw [shiftLeft_lor_eq buffer d j hd, bitsUnder_add]
  congr 1
  · rw [Nat.mul_comm, Nat.mul_add_div (Nat.pos_pow_of_pos _ (by norm_num)),
      Nat.div_eq_of_lt hd, Nat.add_zero]
  · have hm : (buffer * 2 ^ j + d) % 2 ^ j = d % 2 ^ j := by
      rw [Nat.mul_comm, Nat.mul_add_mod]
    calc bitsUnder j (buffer * 2 ^ j + d)
        = bitsUnder j ((buffer * 2 ^ j + d) % 2 ^ j) := (bitsUnder_mod _ _).symm
      _ = bitsUnder j (d % 2 ^ j) := by rw [hm]
      _ = bitsUnder j d := bitsUnder_mod _ _

theorem specDec_peel (c rest : List Bool) (hc : c.length = 8) :
    specDec (c ++ rest) = natOfBits c :: specDec rest := by
  rw [specDec]
  have hlen : 8 ≤ (c ++ rest).length := by
    rw [List.length_append, hc]
    omega
  rw [dif_pos hlen]
  congr 1
  · rw [← hc, List.take_left]
  · rw [← hc, List.drop_left]

theorem specDec_short (bs : List Bool) (h : bs.length < 8) : specDec bs = [] := by
  rw [specDec, dif_neg]
  omega

theorem drop_append_len {A : Type} (a b : List A) (n : Nat) :
    (a ++ b).drop (a.length + n) = b.drop n := by
  induction a with
  | nil => simp
  | cons x xs ih =>
      have h1 : (x :: xs).length + n = (xs.length + n) + 1 := by
        rw [List.length_cons]
        omega
      rw [List.cons_append, h1, List.drop_succ_cons, ih]

theorem b32decodeGo_spec (vals : List Nat) : ∀ buffer bits, bits ≤ 7 →
    (∀ v ∈ vals, v < 32) →
    (b32decodeGo vals buffer bits).1
        = specDec (bitsUnder bits buffer ++ valsBits vals)
    ∧ (b32decodeGo vals buffer bits).2.2 = (bits + 5 * vals.length) % 8
    ∧ bitsUnder (b32decodeGo vals buffer bits).2.2 (b32decodeGo vals buffer bits).2.1
        = (bitsUnder bits buffer ++ valsBits vals).drop
            (8 * ((bits + 5 * vals.length) / 8)) := by
  induction vals with
  | nil =>
      intro buffer bits hb _
      refine ⟨?_, ?_, ?_⟩
      · simp only [b32decodeGo, valsBits, List.map_nil, List.flatten_nil,
          List.append_nil]
        rw [specDec_short _ (by rw [bitsUnder_length]; omega)]
      · simp only [b32decodeGo, List.length_nil]
        omega
      · simp only [b32decodeGo, valsBits, List.map_nil, List.flatten_nil,
          List.append_nil, List.length_nil]
        have h0 : (bits + 5 * 0) / 8 = 0 := by omega
        rw [h0, Nat.mul_zero, List.drop_zero]
  | cons v vs ih =>
      intro buffer bits hb hv
      have hvlt : v < 32 := hv v (List.mem_cons_self v vs)
      have hvals : ∀ x ∈ vs, x < 32 := fun x hx => hv x (List.mem_cons_of_mem _ hx)
      have hb5 : bitsUnder (bits + 5) ((buffer <<< 5) ||| v)
          = bitsUnder bits buffer ++ bitsUnder 5 v :=
        bitsUnder_shiftLor bits 5 buffer v (by norm_num [hvlt])
      have hstream : bitsUnder bits buffer ++ valsBits (v :: vs)
          = bitsUnder (bits + 5) ((buffer <<< 5) ||| v) ++ valsBits vs := by
        rw [hb5, valsBits_cons, List.append_assoc]
      by_cases h8 : 8 ≤ bits + 5
      · simp only [b32decodeGo, if_pos h8]
        obtain ⟨ih1, ih2, ih3⟩ := ih ((buffer <<< 5) ||| v) (bits + 5 - 8)
          (by omega) hvals
        have hsplit : bitsUnder (bits + 5) ((buffer <<< 5) ||| v)
            = bitsUnder 8 (((buffer <<< 5) ||| v) / 2 ^ (bits + 5 - 8))
              ++ bitsUnder (bits + 5 - 8) ((buffer <<< 5) ||| v) := by
          rw [← bitsUnder_add]
          congr 1
          omega
        have hhead : (((buffer <<< 5) ||| v) >>> (bits + 5 - 8)) % 256
            = ((buffer <<< 5) ||| v) / 2 ^ (bits + 5 - 8) % 2 ^ 8 := by
          rw [Nat.shiftRight_eq_div_pow]
          norm_num
        refine ⟨?_, ?_, ?_⟩
        · rw [hstream, hsplit, List.append_assoc,
            specDec_peel _ _ (bitsUnder_length 8 _), natOfBits_bitsUnder, ← ih1,
            ← hhead]
        · rw [ih2, List.length_cons]
          have he : bits + 5 * (vs.length + 1) = (bits + 5 - 8 + 5 * vs.length) + 8 := by
            omega
          rw [he, Nat.add_mod_right]
        · rw [ih3, hstream, hsplit, List.append_assoc, List.length_cons]
          have he : bits + 5 * (vs.length + 1) = (bits + 5 - 8 + 5 * vs.length) + 8 := by
            omega
          rw [he, Nat.add_div_right _ (by norm_num)]
          have hc8 : (bitsUnder 8 (((buffer <<< 5) ||| v) / 2 ^ (bits + 5 - 8))).length = 8 :=
            bitsUnder_length 8 _
          have ham : 8 * ((bits + 5 - 8 + 5 * vs.length) / 8 + 1)
              = (bitsUnder 8 (((buffer <<< 5) ||| v) / 2 ^ (bits + 5 - 8))).length
                + 8 * ((bits + 5 - 8 + 5 * vs.length) / 8) := by
            rw [hc8]
            ring
          rw [ham, drop_append_len]
      · simp only [b32decodeGo, if_neg h8]
        obtain ⟨ih1, ih2, ih3⟩ := ih ((buffer <<< 5) ||| v) (bits + 5)
          (by omega) hvals
        refine ⟨?_, ?_, ?_⟩
        · rw [hstream]
          exact ih1
        · rw [ih2, List.length_cons]
          congr 1
          omega
        · rw [ih3, hstream, List.length_cons]
          have he : bits + 5 * (vs.length + 1) = bits + 5 + 5 * vs.length := by omega
          rw [he]

/-! ## The base-32 round trip -/

theorem bitsUnder_natOfBits_of_length (k : Nat) (bs : List Bool) (h : bs.length = k) :
    bitsUnder k (natOfBits bs) = bs := by
  subst h
  exact bitsUnder_natOfBits bs

theorem b32emitGo_lt (fuel : Nat) : ∀ buffer bits v,
    v ∈ (b32emitGo fuel buffer bits).1 → v < 32 := by
  induction fuel with
  | zero =>
      intro buffer bits v hv
      simp [b32emitGo] at hv
  | succ fuel ih =>
      intro buffer bits v hv
      by_cases h : 5 < bits
      · simp only [b32emitGo, if_pos h] at hv
        rcases List.mem_cons.mp hv with h1 | h1
        · subst h1
          exact Nat.mod_lt _ (by norm_num)
        · exact ih _ _ _ h1
      · simp [b32emitGo, if_neg h] at hv

theorem b32encodeGo_lt (data : List Nat) : ∀ buffer bits v,
    v ∈ b32encodeGo data buffer bits → v < 32 := by
  induction data with
  | nil =>
      intro buffer bits v hv
      simp only [b32encodeGo] at hv
      by_cases h : bits ≠ 0
      · rw [if_pos h] at hv
        rcases List.mem_singleton.mp hv with h1
        subst h1
        exact Nat.mod_lt _ (by norm_num)
      · rw [if_neg h] at hv
        simp at hv
  | cons d ds ih =>
      intro buffer bits v hv
      simp only [b32encodeGo, b32emit] at hv
      rcases List.mem_append.mp hv with h1 | h1
      · exact b32emitGo_lt _ _ _ _ h1
      · exact ih _ _ _ h1

theorem valsBits_specEnc_aux (n : Nat) : ∀ bs : List Bool, bs.length ≤ n →
    valsBits (specEnc bs) = bs ++ List.replicate ((5 - bs.length % 5) % 5) false := by
  induction n with
  | zero =>
      intro bs hb
      have h0 : bs = [] := List.length_eq_zero.mp (by omega)
      subst h0
      simp [specEnc, valsBits]
  | succ n ih =>
      intro bs hb
      by_cases h0 : bs = []
      · subst h0
        simp [specEnc, valsBits]
      by_cases h5 : 5 ≤ bs.length
      · rw [specEnc, if_neg h0, dif_pos h5, valsBits_cons,
          bitsUnder_natOfBits_of_length 5 (bs.take 5)
            (by rw [List.length_take]; omega),
          ih (bs.drop 5) (by rw [List.length_drop]; omega),
          ← List.append_assoc, List.take_append_drop]
        congr 2
        rw [List.length_drop]
        omega
      · rw [specEnc, if_neg h0, dif_neg h5]
        have hlen : (bs ++ List.replicate (5 - bs.length) false).length = 5 := by
          rw [List.length_append, List.length_replicate]
          have := List.length_pos.mpr h0
          omega
        rw [valsBits_cons, bitsUnder_natOfBits_of_length 5 _ hlen]
        have hpos : 0 < bs.length := List.length_pos.mpr h0
        have hm1 : bs.length % 5 = bs.length := Nat.mod_eq_of_lt (by omega)
        have hm2 : (5 - bs.length) % 5 = 5 - bs.length := Nat.mod_eq_of_lt (by omega)
        rw [hm1, hm2]
        simp [valsBits]

theorem valsBits_specEnc (bs : List Bool) :
    valsBits (specEnc bs) = bs ++ List.replicate ((5 - bs.length % 5) % 5) false :=
  valsBits_specEnc_aux bs.length bs (Nat.le_refl _)

theorem specDec_bytes (data : List Nat) : ∀ tail : List Bool, tail.length < 8 →
    (∀ d ∈ data, d < 256) → specDec (bytesBits data ++ tail) = data := by
  induction data with
  | nil =>
      intro tail ht _
      have h0 : bytesBits [] = [] := rfl
      rw [h0, List.nil_append]
      exact specDec_short tail ht
  | cons d ds ih =>
      intro tail ht hall
      have hd : d < 256 := hall d (List.mem_cons_self d ds)
      rw [bytesBits_cons, List.append_assoc, specDec_peel _ _ (bitsUnder_length 8 _),
        natOfBits_bitsUnder, Nat.mod_eq_of_lt (by norm_num [hd] : d < 2 ^ 8),
        ih tail ht (fun x hx => hall x (List.mem_cons_of_mem _ hx))]

theorem b32val_b32chr : ∀ v < 32, b32val (b32chr v) = some v := by decide

theorem b32chr_ne_pad : ∀ v < 32, ¬ b32chr v = '=' := by decide

theorem b32chr_ne_slash : ∀ v < 32, ¬ b32chr v = '/' := by decide

theorem mapM_b32val (vals : List Nat) (h : ∀ v ∈ vals, v < 32) :
    (vals.map b32chr).mapM b32val = some vals := by
  induction vals with
  | nil => rfl
  | cons v vs ih =>
      simp only [List.map_cons, List.mapM_cons]
      rw [b32val_b32chr v (h v (List.mem_cons_self v vs)),
        ih (fun x hx => h x (List.mem_cons_of_mem _ hx))]
      rfl

theorem dropTrailingEq_eq_self (s : List Char) (h : ∀ c ∈ s, ¬ c = '=') :
    dropTrailingEq s = s := by
  unfold dropTrailingEq
  cases hs : s.reverse with
  | nil =>
      have h0 : s = [] := by
        have := congrArg List.reverse hs
        simpa using this
      simp [h0]
  | cons c cs =>
      have hc : c ∈ s := by
        rw [← List.mem_reverse, hs]
        exact List.mem_cons_self c cs
      have hne : ¬ c = '=' := h c hc
      have hstep2 : List.dropWhile (fun x => decide (x = '=')) (c :: cs) = c :: cs := by
        rw [List.dropWhile_cons]
        simp [hne]
      rw [hstep2, ← hs, List.reverse_reverse]

theorem base32_round_trip (data : List Nat) (h : ∀ d ∈ data, d < 256) :
    base32upperDecode (base32upperEncode data) = some data := by
  have hvals : ∀ v ∈ b32encodeGo data 0 0, v < 32 :=
    fun v hv => b32encodeGo_lt data 0 0 v hv
  have hstep : base32upperDecode (base32upperEncode data)
      = rfc4648Decode (rfc4648Encode data) := by
    simp [base32upperDecode, base32upperEncode]
  have hmatch : rfc4648Decode (rfc4648Encode data)
      = rfc4648DecodeVals (b32encodeGo data 0 0) := by
    unfold rfc4648Decode rfc4648Encode
    rw [dropTrailingEq_eq_self _ (by
      intro c hc
      obtain ⟨v, hv, rfl⟩ := List.mem_map.mp hc
      exact b32chr_ne_pad v (hvals v hv))]
    rw [mapM_b32val _ hvals]
  rw [hstep, hmatch]
  unfold rfc4648DecodeVals
  obtain ⟨d1, d2, d3⟩ := b32decodeGo_spec (b32encodeGo data 0 0) 0 0 (by omega) hvals
  have henc : b32encodeGo data 0 0 = specEnc (bytesBits data) := by
    have h0 := b32encodeGo_spec data 0 0 (by omega) h
    simpa [bitsUnder] using h0
  have hvb : valsBits (b32encodeGo data 0 0)
      = bytesBits data ++ List.replicate ((5 - (bytesBits data).length % 5) % 5) false := by
    rw [henc, valsBits_specEnc]
  have hplt : (5 - (bytesBits data).length % 5) % 5 < 5 := Nat.mod_lt _ (by norm_num)
  have hlen5 : 5 * (b32encodeGo data 0 0).length
      = 8 * data.length + (5 - (bytesBits data).length % 5) % 5 := by
    rw [← valsBits_length, hvb, List.length_append, List.length_replicate,
      bytesBits_length]
  have hfb : (0 + 5 * (b32encodeGo data 0 0).length) % 8
      = (5 - (bytesBits data).length % 5) % 5 := by
    rw [Nat.zero_add, hlen5]
    omega
  have hfd : (0 + 5 * (b32encodeGo data 0 0).length) / 8 = data.length := by
    rw [Nat.zero_add, hlen5]
    omega
  have hstream0 : bitsUnder 0 0 ++ valsBits (b32encodeGo data 0 0)
      = bytesBits data ++ List.replicate ((5 - (bytesBits data).length % 5) % 5) false := by
    rw [hvb]
    rfl
  rw [hstream0] at d1 d3
  rw [hfb] at d2
  rw [hfd] at d3
  have htail : bitsUnder (b32decodeGo (b32encodeGo data 0 0) 0 0).2.2
      (b32decodeGo (b32encodeGo data 0 0) 0 0).2.1
      = List.replicate ((5 - (bytesBits data).length % 5) % 5) false := by
    rw [d3]
    have hd : 8 * data.length = (bytesBits data).length + 0 := by
      rw [bytesBits_length]
      omega
    rw [hd, drop_append_len, List.drop_zero]
  have hbytes : (b32decodeGo (b32encodeGo data 0 0) 0 0).1 = data := by
    rw [d1]
    exact specDec_bytes data _ (by rw [List.length_replicate]; omega) h
  have hcond1 : (b32decodeGo (b32encodeGo data 0 0) 0 0).2.2 < 5 := by
    rw [d2]
    omega
  have hcond2 : ((b32decodeGo (b32encodeGo data 0 0) 0 0).2.1
      <<< (8 - (b32decodeGo (b32encodeGo data 0 0) 0 0).2.2)) % 256 = 0 := by
    rw [d2, Nat.shiftLeft_eq]
    have h256 : (256 : Nat) = 2 ^ ((5 - (bytesBits data).length % 5) % 5)
        * 2 ^ (8 - (5 - (bytesBits data).length % 5) % 5) := by
      rw [← pow_add]
      have he : (5 - (bytesBits data).length % 5) % 5
          + (8 - (5 - (bytesBits data).length % 5) % 5) = 8 := by omega
      rw [he]
      norm_num
    rw [h256, Nat.mul_mod_mul_right]
    have hmod : (b32decodeGo (b32encodeGo data 0 0) 0 0).2.1
        % 2 ^ ((5 - (bytesBits data).length % 5) % 5) = 0 := by
      rw [← natOfBits_bitsUnder, ← d2, htail, natOfBits_replicate_false]
    rw [hmod, Nat.zero_mul]
  rw [if_neg (by
    push_neg
    exact ⟨hcond1, by rw [hcond2]⟩), hbytes]

/-! ## Varints, multihashes and content identifiers (`multiformats`)

`sharding.js` encodes `cid.multihash.bytes` and decodes paths through
`CID.decode`; this section embeds the binary shape of those values. -/

/-- Unsigned LEB128 varint encoding (`multiformats/vendor/varint`): low
7 bits first, high bit of a byte marks continuation. `fuel = n` always
suffices since the value shrinks by a factor 128 per byte; the fuel-0
branch then only ever sees `n = 0`. -/
def varintEncodeGo : Nat → Nat → List Nat
  | 0, n => [n % 128]
  | fuel + 1, n =>
      if n < 128 then [n] else (n % 128 + 128) :: varintEncodeGo fuel (n / 128)

def varintEncode (n : Nat) : List Nat := varintEncodeGo n n

/-- Unsigned LEB128 varint decoding: the value and the remaining bytes,
`none` on truncated input. -/
def varintDecode : List Nat → Option (Nat × List Nat)
  | [] => none
  | b :: rest =>
      if b < 128 then some (b, rest)
      else
        match varintDecode rest with
        | none => none
        | some (v, r) => some (b % 128 + 128 * v, r)

theorem varintEncodeGo_decode (fuel : Nat) : ∀ n rest, n ≤ fuel →
    varintDecode (varintEncodeGo fuel n ++ rest) = some (n, rest) := by
  induction fuel with
  | zero =>
      intro n rest hn
      have h0 : n = 0 := by omega
      subst h0
      simp [varintEncodeGo, varintDecode]
  | succ fuel ih =>
      intro n rest hn
      by_cases h : n < 128
      · simp [varintEncodeGo, h, varintDecode]
      · simp only [varintEncodeGo, if_neg h, List.cons_append]
        have hrec : varintDecode (varintEncodeGo fuel (n / 128) ++ rest)
            = some (n / 128, rest) := ih _ rest (by omega)
        have hb : ¬ n % 128 + 128 < 128 := by omega
        simp only [varintDecode, if_neg hb, hrec]
        have hv : (n % 128 + 128) % 128 + 128 * (n / 128) = n := by omega
        rw [hv]

theorem varintDecode_encode (n : Nat) (rest : List Nat) :
    varintDecode (varintEncode n ++ rest) = some (n, rest) :=
  varintEncodeGo_decode n n rest (Nat.le_refl n)

theorem varintEncodeGo_lt (fuel : Nat) : ∀ n b, b ∈ varintEncodeGo fuel n → b < 256 := by
  induction fuel with
  | zero =>
      intro n b hb
      simp only [varintEncodeGo] at hb
      rcases List.mem_singleton.mp hb with h
      subst h
      have := Nat.mod_lt n (show 0 < 128 by norm_num)
      omega
  | succ fuel ih =>
      intro n b hb
      by_cases h : n < 128
      · simp only [varintEncodeGo, if_pos h] at hb
        rcases List.mem_singleton.mp hb with h1
        omega
      · simp only [varintEncodeGo, if_neg h] at hb
        rcases List.mem_cons.mp hb with h1 | h1
        · have := Nat.mod_lt n (show 0 < 128 by norm_num)
          omega
        · exact ih _ _ h1

theorem varintEncode_lt (n b : Nat) (hb : b ∈ varintEncode n) : b < 256 :=
  varintEncodeGo_lt n n b hb

/-- A multihash as `multiformats` models it: hash-function code, declared
digest size, digest bytes. -/
structure Multihash where
  code : Nat
  size : Nat
  digest : List Nat
deriving DecidableEq

/-- `multihash.bytes`: varint code, varint size, digest. -/
def Multihash.bytes (mh : Multihash) : List Nat :=
  varintEncode mh.code ++ varintEncode mh.size ++ mh.digest

/-- A content identifier: version, content codec, multihash. `CID.decode`
below reconstructs one from binary form; two identifiers are the same
exactly when all three components agree. -/
structure CID where
  version : Nat
  codec : Nat
  multihash : Multihash
deriving DecidableEq

/-- `CID.decode` from `multiformats/cid` (via `inspectBytes`/`decodeFirst`):
a leading varint 18 (the sha2-256 code) marks an implicit CIDv0 whose bytes
are a bare multihash and whose codec defaults to dag-pb `0x70`; otherwise
the leading varint is the version (only 0 and 1 accepted), then the content
codec varint, then the multihash. The digest must account for exactly the
remaining bytes (`Incorrect length` otherwise, including trailing bytes
rejected by `CID.decode` itself). A version-0 identifier is always built
with codec dag-pb (`createV0`). -/
def CID.decode (bytes : List Nat) : Option CID :=
  match varintDecode bytes with
  | none => none
  | some (first, r1) =>
      if first = 18 then
        match varintDecode r1 with
        | none => none
        | some (size, r2) =>
            if r2.length = size then some ⟨0, 0x70, ⟨18, size, r2⟩⟩ else none
      else
        match varintDecode r1 with
        | none => none
        | some (codec, r2) =>
            if first = 0 ∨ first = 1 then
              match varintDecode r2 with
              | none => none
              | some (mhcode, r3) =>
                  match varintDecode r3 with
                  | none => none
                  | some (mhsize, r4) =>
                      if r4.length = mhsize then
                        if first = 0 then some ⟨0, 0x70, ⟨mhcode, mhsize, r4⟩⟩
                        else some ⟨1, codec, ⟨mhcode, mhsize, r4⟩⟩
                      else none
            else none

/-- A well-formed version-0 content identifier: dag-pb codec, sha2-256
multihash whose declared size matches its digest. -/
def CID.isV0 (c : CID) : Prop :=
  c.version = 0 ∧ c.codec = 0x70 ∧ c.multihash.code = 18 ∧
    c.multihash.size = c.multihash.digest.length

instance : DecidablePred CID.isV0 := fun c => by
  unfold CID.isV0
  infer_instance

theorem CID.decode_v0_bytes (c : CID) (h : CID.isV0 c) :
    CID.decode c.multihash.bytes = some c := by
  obtain ⟨h0, h1, h2, h3⟩ := h
  have hb : c.multihash.bytes
      = 18 :: (varintEncode c.multihash.size ++ c.multihash.digest) := by
    unfold Multihash.bytes
    rw [h2]
    rfl
  rw [hb]
  unfold CID.decode
  have hd1 : varintDecode (18 :: (varintEncode c.multihash.size ++ c.multihash.digest))
      = some (18, varintEncode c.multihash.size ++ c.multihash.digest) := by
    simp [varintDecode]
  rw [hd1]
  simp only [if_pos rfl, varintDecode_encode, reduceIte]
  rw [if_pos h3.symm]
  rcases c with ⟨v, cc, ⟨mc, ms, md⟩⟩
  simp_all

theorem Multihash.bytes_lt (mh : Multihash) (h : ∀ b ∈ mh.digest, b < 256) :
    ∀ b ∈ mh.bytes, b < 256 := by
  intro b hb
  unfold Multihash.bytes at hb
  rcases List.mem_append.mp hb with h1 | h1
  · rcases List.mem_append.mp h1 with h2 | h2
    · exact varintEncode_lt _ _ h2
    · exact varintEncode_lt _ _ h2
  · exact h b h1

/-! ## Sharding strategies (`src/sharding.js`) -/

/-- A pluggable multibase codec, the `base` option of both strategies:
`encoder.encode` and `decoder.decode` as used by the source. -/
structure MultibaseCodec where
  encoder : List Nat → List Char
  decoder : List Char → Option (List Nat)

/-- The default codec of both strategies. -/
def base32upper : MultibaseCodec :=
  ⟨base32upperEncode, base32upperDecode⟩

/-- `String.prototype.split` with a one-character separator, as a list of
segments; the result always has at least one (possibly empty) segment. -/
def jsSplit (sep : Char) : List Char → List (List Char)
  | [] => [[]]
  | c :: cs =>
      let r := jsSplit sep cs
      if c = sep then [] :: r else (c :: r.headI) :: r.tail

theorem jsSplit_ne_nil (sep : Char) (s : List Char) : jsSplit sep s ≠ [] := by
  cases s with
  | nil => simp [jsSplit]
  | cons c cs =>
      simp only [jsSplit]
      by_cases h : c = sep <;> simp [h]

theorem jsSplit_no_sep (sep : Char) (s : List Char) (h : ∀ c ∈ s, ¬ c = sep) :
    jsSplit sep s = [s] := by
  induction s with
  | nil => rfl
  | cons c cs ih =>
      have hc : ¬ c = sep := h c (List.mem_cons_self c cs)
      simp only [jsSplit, if_neg hc,
        ih (fun x hx => h x (List.mem_cons_of_mem _ hx))]
      rfl

theorem jsSplit_append (sep : Char) (x y : List Char)
    (hx : ∀ c ∈ x, ¬ c = sep) :
    jsSplit sep (x ++ sep :: y) = x :: jsSplit sep y := by
  induction x with
  | nil => simp [jsSplit]
  | cons c xs ih =>
      have hc : ¬ c = sep := hx c (List.mem_cons_self c xs)
      have ih' : jsSplit sep (xs ++ sep :: y) = xs :: jsSplit sep y :=
        ih (fun a ha => hx a (List.mem_cons_of_mem _ ha))
      rw [List.cons_append]
      rw [show jsSplit sep (c :: (xs ++ sep :: y))
          = if c = sep then [] :: jsSplit sep (xs ++ sep :: y)
            else (c :: (jsSplit sep (xs ++ sep :: y)).headI)
              :: (jsSplit sep (xs ++ sep :: y)).tail from rfl]
      rw [ih', if_neg hc]
      rfl

/-- `String.prototype.endsWith`. -/
def jsEndsWith (s suffix : List Char) : Bool := suffix.isSuffixOf s

inductive ShardDecodeError where
  /-- the `throw new Error('Invalid path')` branch after `pop()` -/
  | invalidPath
  /-- the multibase decoder rejected the token -/
  | codecError
  /-- `CID.decode` rejected the decoded bytes -/
  | cidError
deriving DecidableEq

/-- The decode body shared verbatim by both strategies in the source: take
the last `/`-separated segment (`str.split('/').pop()`, which is `undefined`
only for an empty array — the `Invalid path` branch), strip the extension
suffix when present (`substring(0, length - extension.length)`), decode the
token with the multibase decoder, and parse the bytes as a content
identifier. -/
def decodeToken (base : MultibaseCodec) (tok : List Char) :
    Except ShardDecodeError CID :=
  match base.decoder tok with
  | none => .error .codecError
  | some bytes =>
      match CID.decode bytes with
      | none => .error .cidError
      | some cid => .ok cid

def shardPathDecode (extension : List Char) (base : MultibaseCodec)
    (str : List Char) : Except ShardDecodeError CID :=
  match (jsSplit '/' str).getLast? with
  | none => .error .invalidPath
  | some fileName =>
      decodeToken base (if jsEndsWith fileName extension then
        fileName.take (fileName.length - extension.length) else fileName)

/-- The `NextToLast` sharding strategy with its constructor defaults:
extension `.data`, prefix length 2, base-32-upper codec. -/
structure NextToLast where
  extension : List Char := ".data".toList
  prefixLength : Nat := 2
  base : MultibaseCodec := base32upper

/-- `NextToLast.encode`: multibase-encode the multihash bytes, take the last
`prefixLength` characters of the token as the shard directory
(`str.substring(str.length - prefixLength)`), and produce
`prefix/token.extension`. -/
def NextToLast.encode (t : NextToLast) (cid : CID) : List Char :=
  (t.base.encoder cid.multihash.bytes).drop
      ((t.base.encoder cid.multihash.bytes).length - t.prefixLength)
    ++ '/' :: (t.base.encoder cid.multihash.bytes ++ t.extension)

def NextToLast.decode (t : NextToLast) (str : List Char) :
    Except ShardDecodeError CID :=
  shardPathDecode t.extension t.base str

/-- The `FlatDirectory` strategy with its constructor defaults: no shard
directory, extension `.data`, base-32-upper codec. -/
structure FlatDirectory where
  extension : List Char := ".data".toList
  base : MultibaseCodec := base32upper

/-- `FlatDirectory.encode`: `token.extension` with no directory segment. -/
def FlatDirectory.encode (t : FlatDirectory) (cid : CID) : List Char :=
  t.base.encoder cid.multihash.bytes ++ t.extension

def FlatDirectory.decode (t : FlatDirectory) (str : List Char) :
    Except ShardDecodeError CID :=
  shardPathDecode t.extension t.base str

/-! ## Round trip of the sharding strategies on CIDv0 identifiers -/

theorem base32upperEncode_no_slash (data : List Nat) :
    ∀ c ∈ base32upperEncode data, ¬ c = '/' := by
  intro c hc
  rcases List.mem_cons.mp hc with h | h
  · subst h
    decide
  · obtain ⟨v, hv, rfl⟩ := List.mem_map.mp h
    exact b32chr_ne_slash v (b32encodeGo_lt data 0 0 v hv)

theorem strip_extension (tok ext : List Char) :
    (if jsEndsWith (tok ++ ext) ext then
        (tok ++ ext).take ((tok ++ ext).length - ext.length)
      else (tok ++ ext)) = tok := by
  have he : jsEndsWith (tok ++ ext) ext = true := by
    unfold jsEndsWith
    rw [List.isSuffixOf_iff_suffix]
    exact List.suffix_append tok ext
  rw [if_pos he, List.length_append, Nat.add_sub_cancel, List.take_left]

theorem base32upper_encoder : base32upper.encoder = base32upperEncode := rfl

theorem base32upper_decoder : base32upper.decoder = base32upperDecode := rfl

/-- Decoding the token of a CIDv0: when the token is the base-32-upper
multibase form of the identifier's multihash bytes, the original identifier
comes back. -/
theorem decodeToken_v0 (c : CID) (h0 : CID.isV0 c)
    (hdig : ∀ b ∈ c.multihash.digest, b < 256) :
    decodeToken base32upper (base32upperEncode c.multihash.bytes)
      = Except.ok c := by
  have hrt : base32upper.decoder (base32upperEncode c.multihash.bytes)
      = some c.multihash.bytes :=
    base32_round_trip c.multihash.bytes (Multihash.bytes_lt c.multihash hdig)
  simp only [decodeToken, hrt, CID.decode_v0_bytes c h0]

theorem nextToLast_decode_encode (t : NextToLast) (c : CID)
    (hext : ∀ x ∈ t.extension, ¬ x = '/') (h0 : CID.isV0 c)
    (hbase : t.base = base32upper)
    (hdig : ∀ b ∈ c.multihash.digest, b < 256) :
    t.decode (t.encode c) = Except.ok c := by
  unfold NextToLast.encode NextToLast.decode shardPathDecode
  rw [hbase, base32upper_encoder]
  have htok := base32upperEncode_no_slash c.multihash.bytes
  have hpre : ∀ x ∈ (base32upperEncode c.multihash.bytes).drop
      ((base32upperEncode c.multihash.bytes).length - t.prefixLength), ¬ x = '/' :=
    fun x hx => htok x (List.drop_subset _ _ hx)
  have hfile : ∀ x ∈ base32upperEncode c.multihash.bytes ++ t.extension, ¬ x = '/' := by
    intro x hx
    rcases List.mem_append.mp hx with h1 | h1
    · exact htok x h1
    · exact hext x h1
  rw [jsSplit_append '/' _ _ hpre, jsSplit_no_sep '/' _ hfile]
  simp only [List.getLast?_cons_cons, List.getLast?_singleton]
  rw [strip_extension]
  exact decodeToken_v0 c h0 hdig

theorem flatDirectory_decode_encode (t : FlatDirectory) (c : CID)
    (hext : ∀ x ∈ t.extension, ¬ x = '/') (h0 : CID.isV0 c)
    (hbase : t.base = base32upper)
    (hdig : ∀ b ∈ c.multihash.digest, b < 256) :
    t.decode (t.encode c) = Except.ok c := by
  unfold FlatDirectory.encode FlatDirectory.decode shardPathDecode
  rw [hbase, base32upper_encoder]
  have htok := base32upperEncode_no_slash c.multihash.bytes
  have hfile : ∀ x ∈ base32upperEncode c.multihash.bytes ++ t.extension, ¬ x = '/' := by
    intro x hx
    rcases List.mem_append.mp hx with h1 | h1
    · exact htok x h1
    · exact hext x h1
  rw [jsSplit_no_sep '/' _ hfile]
  simp only [List.getLast?_singleton]
  rw [strip_extension]
  exact decodeToken_v0 c h0 hdig

instance {e a : Type} [DecidableEq e] [DecidableEq a] : DecidableEq (Except e a)
  | .error x, .error y =>
      if h : x = y then .isTrue (by rw [h])
      else .isFalse (fun hc => by cases hc; exact h rfl)
  | .error _, .ok _ => .isFalse (fun h => by cases h)
  | .ok _, .error _ => .isFalse (fun h => by cases h)
  | .ok x, .ok y =>
      if h : x = y then .isTrue (by rw [h])
      else .isFalse (fun hc => by cases hc; exact h rfl)

/-! ## The S3 blockstore (`src/index.js`)

The S3 client is an external collaborator reached only through
`this.s3.send(command, { abortSignal })`; each operation below therefore
takes the collaborator's response to its command as an input and models the
operation's own control flow over it. -/

/-- The observable fields of a JavaScript error as the blockstore inspects
them: `err.code`, `err.statusCode`, `err.$metadata?.httpStatusCode` (with
`none` for an absent/`undefined` field), and whether the error is the abort
(`Cancelled`) condition a client raises for an already-aborted signal. -/
structure JsError where
  code : Option String
  statusCode : Option Nat
  httpStatusCode : Option Nat
  aborted : Bool
deriving DecidableEq

/-- An error surfaced to the blockstore's caller: one of the
`blockstore-core` wrappers (`putFailedError`, `deleteFailedError`,
`openFailedError`, `notFoundError`, each wrapping its cause), an underlying
error re-raised unchanged, or a plain JavaScript `Error` carrying only a
message (as thrown by `getAll`'s catch-all and by `get`'s missing-body
check). -/
inductive OpError where
  | putFailed (cause : JsError)
  | deleteFailed (cause : JsError)
  | openFailed (cause : JsError)
  | notFound (cause : JsError)
  | passthrough (cause : JsError)
  | jsError (message : Option String)
deriving DecidableEq

/-- The `code` property `err-code` attaches to the `blockstore-core`
wrappers; a passthrough error keeps its own `code`; a plain `Error` has
none. Read by `getAll`'s `throw new Error(err.code)`. -/
def OpError.errCode : OpError → Option String
  | .putFailed _ => some "ERR_PUT_FAILED"
  | .deleteFailed _ => some "ERR_DELETE_FAILED"
  | .openFailed _ => some "ERR_OPEN_FAILED"
  | .notFound _ => some "ERR_NOT_FOUND"
  | .passthrough e => e.code
  | .jsError _ => none

/-- UTF-8 encoding of one character (`uint8arrays.fromString` default). -/
def utf8EncodeChar (c : Char) : List Nat :=
  let n := c.toNat
  if n < 0x80 then [n]
  else if n < 0x800 then [0xC0 + n / 64, 0x80 + n % 64]
  else if n < 0x10000 then [0xE0 + n / 4096, 0x80 + (n / 64) % 64, 0x80 + n % 64]
  else [0xF0 + n / 262144, 0x80 + (n / 4096) % 64, 0x80 + (n / 64) % 64, 0x80 + n % 64]

def utf8Encode (s : List Char) : List Nat := (s.map utf8EncodeChar).flatten

/-- The transport shapes a `GetObject` response `Body` can take. -/
inductive S3Body where
  | bytes (bs : List Nat)
  | str (s : List Char)
  | blob (bs : List Nat)
  | stream (bs : List Nat)
deriving DecidableEq

/-- `get`'s normalization of the body: a `Uint8Array` as-is, a string as
UTF-8 bytes, a `Blob` via `arrayBuffer()`, a stream via `it-to-buffer`. -/
def s3BodyToBytes : S3Body → List Nat
  | .bytes bs => bs
  | .str s => utf8Encode s
  | .blob bs => bs
  | .stream bs => bs

/-- The duck-typed sharding strategy the blockstore holds. -/
structure ShardingStrategy where
  encode : CID → List Char
  decode : List Char → Except ShardDecodeError CID

def NextToLast.strategy (t : NextToLast) : ShardingStrategy :=
  ⟨t.encode, t.decode⟩

def FlatDirectory.strategy (t : FlatDirectory) : ShardingStrategy :=
  ⟨t.encode, t.decode⟩

/-- The object key `${this.prefix}${this.shardingStrategy.encode(key)}`.
The constructor sets `this.prefix` to `` `${init.prefix}/` `` when a string
was configured and to `null` otherwise — and a `null` prefix stringifies as
the text `null` inside the key template literal. -/
def S3Blockstore.objectKey (pre : Option (List Char)) (t : ShardingStrategy)
    (key : CID) : List Char :=
  (match pre with
    | some p => p ++ ['/']
    | none => "null".toList) ++ t.encode key

/-- `S3Blockstore.put`: issue one `PutObjectCommand`; wrap any failure with
`Errors.putFailedError` and return the same key on success. -/
def S3Blockstore.put (key : CID) (resp : Except JsError Unit) :
    Except OpError CID :=
  match resp with
  | .ok _ => .ok key
  | .error e => .error (.putFailed e)

/-- `S3Blockstore.get`: issue one `GetObjectCommand`; a response without a
body raises a plain `Error('Response had no body')` which the method's
own catch re-raises unchanged (its `statusCode` is `undefined`); a failure
with `statusCode === 404` becomes `Errors.notFoundError`; any other failure
is re-raised unchanged. -/
def S3Blockstore.get (resp : Except JsError (Option S3Body)) :
    Except OpError (List Nat) :=
  match resp with
  | .ok (some body) => .ok (s3BodyToBytes body)
  | .ok none => .error (.jsError (some "Response had no body"))
  | .error e =>
      if e.statusCode = some 404 then .error (.notFound e)
      else .error (.passthrough e)

/-- `S3Blockstore.has`: issue one `HeadObjectCommand`; `true` on success,
`false` when `err.$metadata?.httpStatusCode` is 404 or 403, otherwise the
failure is re-raised unchanged. -/
def S3Blockstore.has (resp : Except JsError Unit) : Except OpError Bool :=
  match resp with
  | .ok _ => .ok true
  | .error e =>
      if e.httpStatusCode = some 404 then .ok false
      else if e.httpStatusCode = some 403 then .ok false
      else .error (.passthrough e)

/-- `S3Blockstore.delete`: issue one `DeleteObjectCommand`; wrap any failure
with `Errors.deleteFailedError`. -/
def S3Blockstore.delete (resp : Except JsError Unit) : Except OpError Unit :=
  match resp with
  | .ok _ => .ok ()
  | .error e => .error (.deleteFailed e)

/-- `S3Blockstore.open`: probe with `HeadObjectCommand { Key: '' }`
(`openStore` because `open` is a reserved word in Lean). A successful probe
and a probe failure with `statusCode === 404` both return silently; every
other probe failure either triggers `CreateBucketCommand` (when
`createIfMissing`) — whose own failure escapes the catch block unwrapped —
or is wrapped with `Errors.openFailedError`. -/
def S3Blockstore.openStore (createIfMissing : Bool)
    (headResp : Except JsError Unit) (createResp : Except JsError Unit) :
    Except OpError Unit :=
  match headResp with
  | .ok _ => .ok ()
  | .error e =>
      if e.statusCode ≠ some 404 then
        if createIfMissing then
          match createResp with
          | .ok _ => .ok ()
          | .error e2 => .error (.passthrough e2)
        else .error (.openFailed e)
      else .ok ()

/-- The `ListObjectsV2` response fields `getAll` reads: `Contents` (absent
or a list of objects whose `Key` may be absent) and `IsTruncated`. -/
structure ListResp where
  contents : Option (List (Option (List Char)))
  isTruncated : Bool
deriving DecidableEq

/-- One entry yielded by `getAll`. -/
structure Pair where
  cid : CID
  block : List Nat
deriving DecidableEq

/-- What can go wrong inside `getAll`'s `try` block, for the catch-all's
`err.code` read: a listing failure, a plain internal `Error` (null `data`
or `Contents`, a missing `Key`, indexing an empty page), a sharding decode
throw, or a failure of the inner `this.get`. -/
inductive GetAllInner where
  | fromSend (e : JsError)
  | plainErr
  | decodeFail
  | fromOp (e : OpError)
deriving DecidableEq

def GetAllInner.errCode : GetAllInner → Option String
  | .fromSend e => e.code
  | .plainErr => none
  | .decodeFail => none
  | .fromOp e => e.errCode

/-- The `for (const d of data.Contents)` loop of `getAll`: decode each key,
read its block through `this.get`, and yield pairs until the first failure
(which aborts the whole enumeration). -/
def S3Blockstore.getAllItems (strategy : ShardingStrategy)
    (pre : Option (List Char))
    (sendGet : List Char → Except JsError (Option S3Body)) :
    List (Option (List Char)) → List Pair × Option GetAllInner
  | [] => ([], none)
  | none :: _ => ([], some .plainErr)
  | some k :: rest =>
      match strategy.decode k with
      | .error _ => ([], some .decodeFail)
      | .ok cid =>
          match S3Blockstore.get (sendGet (S3Blockstore.objectKey pre strategy cid)) with
          | .error oe => ([], some (.fromOp oe))
          | .ok block =>
              let r := S3Blockstore.getAllItems strategy pre sendGet rest
              (⟨cid, block⟩ :: r.1, r.2)

/-- The pagination loop of `getAll`. `sendList` is the collaborator's
response to `ListObjectsV2Command` as a function of the `StartAfter`
marker; `aborted` is `options?.signal?.aborted === true`, checked after
each listing call and before the null checks; every error escaping the
`try` block is rethrown as `new Error(err.code)`. `fuel` only bounds the
number of pages walked (the source's loop is unbounded when the
collaborator keeps returning truncated pages); with fuel left, exhaustion
never occurs on the runs the theorems describe. -/
def S3Blockstore.getAllGo (strategy : ShardingStrategy)
    (pre : Option (List Char))
    (sendList : Option (List Char) → Except JsError (Option ListResp))
    (sendGet : List Char → Except JsError (Option S3Body))
    (aborted : Bool) : Nat → Option (List Char) → List Pair × Option OpError
  | 0, _ => ([], none)
  | fuel + 1, startAfter =>
      match sendList startAfter with
      | .error e => ([], some (.jsError e.code))
      | .ok dataOpt =>
          if aborted then ([], none)
          else
            match dataOpt with
            | none => ([], some (.jsError none))
            | some data =>
                match data.contents with
                | none => ([], some (.jsError none))
                | some items =>
                    let r := S3Blockstore.getAllItems strategy pre sendGet items
                    match r.2 with
                    | some ie => (r.1, some (.jsError ie.errCode))
                    | none =>
                        if data.isTruncated then
                          match items.getLast? with
                          | none => (r.1, some (.jsError none))
                          | some lastItem =>
                              let r2 := S3Blockstore.getAllGo strategy pre
                                sendList sendGet aborted fuel lastItem
                              (r.1 ++ r2.1, r2.2)
                        else (r.1, none)

/-- `getAll` drained into a list: the pairs yielded before the generator
either ends (no error) or throws (the terminal error). -/
def S3Blockstore.getAll (strategy : ShardingStrategy) (pre : Option (List Char))
    (sendList : Option (List Char) → Except JsError (Option ListResp))
    (sendGet : List Char → Except JsError (Option S3Body))
    (aborted : Bool) (fuel : Nat) : List Pair × Option OpError :=
  S3Blockstore.getAllGo strategy pre sendList sendGet aborted fuel none

/-! ## The repository's in-memory S3 mock (`s3-mock.js`) -/

/-- The mock's `Map` from object key to stored body. -/
def MockStorage : Type := List (List Char × List Nat)

/-- `new S3Error(message, code)`: `.code` holds the message text,
`.statusCode` the numeric status (possibly absent), and
`.$metadata.httpStatusCode` the status defaulted to 200. -/
def s3ErrorOf (message : String) (status : Option Nat) : JsError :=
  ⟨some message, status, some (status.getD 200), false⟩

def mockHasKey (st : MockStorage) (k : List Char) : Bool :=
  st.any (fun p => p.1 == k)

def mockBody (st : MockStorage) (k : List Char) : Option (List Nat) :=
  (st.find? (fun p => p.1 == k)).map (fun p => p.2)

/-- `storage.set(key, body)` (association-list form; lookups agree with the
JS `Map`). -/
def mockSet (st : MockStorage) (k : List Char) (v : List Nat) : MockStorage :=
  (k, v) :: st.filter (fun p => !(p.1 == k))

/-- `storage.delete(key)`. -/
def mockDeleteKey (st : MockStorage) (k : List Char) : MockStorage :=
  st.filter (fun p => !(p.1 == k))

/-- The mock's `PutObjectCommand` handler: store and resolve. -/
def s3MockPut (st : MockStorage) (k : List Char) (v : List Nat) :
    Except JsError Unit × MockStorage :=
  (.ok (), mockSet st k v)

/-- The mock's `HeadObjectCommand` handler: resolve when stored, otherwise
reject with `S3Error('NotFound', 404)`. -/
def s3MockHead (st : MockStorage) (k : List Char) : Except JsError Unit :=
  if mockHasKey st k then .ok () else .error (s3ErrorOf "NotFound" (some 404))

/-- The mock's `GetObjectCommand` handler. -/
def s3MockGet (st : MockStorage) (k : List Char) :
    Except JsError (Option S3Body) :=
  match mockBody st k with
  | some v => .ok (some (.bytes v))
  | none => .error (s3ErrorOf "NotFound" (some 404))

/-- The mock's `DeleteObjectCommand` handler: delete unconditionally and
resolve, whether or not the key was present. -/
def s3MockDelete (st : MockStorage) (k : List Char) :
    Except JsError Unit × MockStorage :=
  (.ok (), mockDeleteKey st k)

/-! ## Fixtures for witnesses and counterexamples -/

/-- A version-0 identifier: sha2-256 multihash, all-zero digest. -/
def cidV0ex : CID := ⟨0, 0x70, ⟨18, 32, List.replicate 32 0⟩⟩

/-- A version-1 `raw`-codec identifier with the same multihash. -/
def cidV1ex : CID := ⟨1, 0x55, ⟨18, 32, List.replicate 32 0⟩⟩

/-- A version-0 identifier with an all-`0xff` digest (its encoded token
ends in different characters than `cidV0ex`'s). -/
def cidOnes : CID := ⟨0, 0x70, ⟨18, 32, List.replicate 32 255⟩⟩

def err404 : JsError := ⟨some "NotFound", some 404, some 404, false⟩

def err403 : JsError := ⟨some "Forbidden", some 403, some 403, false⟩

def err500 : JsError := ⟨some "InternalError", some 500, some 500, false⟩

/-- The abort condition (`AbortError`): no HTTP status, no `code`. -/
def abortErr : JsError := ⟨none, none, none, true⟩

/-- Whether an operation outcome is an `OpenFailed` report. -/
def isOpenFailedResult : Except OpError Unit → Bool
  | .error (.openFailed _) => true
  | _ => false

/-- A codec under which every identifier's token is `ABCDEFGH` (for the
concrete scenario of C8, which fixes the token, not the codec). -/
def tokenABCCodec : MultibaseCodec := ⟨fun _ => "ABCDEFGH".toList, fun _ => none⟩

/-! ## Claims -/

/-- C1, amended: `decode(encode(x)) == x` holds for both strategy variants
for every valid CIDv0 identifier, for every configuration whose extension
contains no `/` and whose codec is the default base-32-upper. (As stated,
over every valid identifier, the claim is false: `encode` keeps only the
multihash bytes and `decode` re-parses them as a CID, so CIDv1 identifiers
do not survive — see the counterexample.) -/
theorem c1_round_trip (t : NextToLast) (f : FlatDirectory) (c : CID)
    (hextT : ∀ x ∈ t.extension, ¬ x = '/') (hextF : ∀ x ∈ f.extension, ¬ x = '/')
    (hbT : t.base = base32upper) (hbF : f.base = base32upper)
    (h0 : CID.isV0 c) (hdig : ∀ b ∈ c.multihash.digest, b < 256) :
    t.decode (t.encode c) = Except.ok c ∧ f.decode (f.encode c) = Except.ok c :=
  ⟨nextToLast_decode_encode t c hextT h0 hbT hdig,
   flatDirectory_decode_encode f c hextF h0 hbF hdig⟩

/-- C1 witness: the round trip at the default configurations and a concrete
CIDv0. -/
theorem c1_witness :
    NextToLast.decode {} (NextToLast.encode {} cidV0ex) = Except.ok cidV0ex
    ∧ FlatDirectory.decode {} (FlatDirectory.encode {} cidV0ex) = Except.ok cidV0ex :=
  c1_round_trip {} {} cidV0ex (by decide) (by decide) rfl rfl (by decide) (by decide)

/-- C1 counterexample: a CIDv1 (`raw`, sha2-256) under the default
`NextToLast` configuration does not round-trip — decoding the encoded path
yields the CIDv0 with the same multihash, not the original identifier. -/
theorem c1_counterexample :
    NextToLast.decode {} (NextToLast.encode {} cidV1ex) ≠ Except.ok cidV1ex := by
  decide

/-- C2, amended: `open` succeeds silently when the probe succeeds or fails
with `statusCode` 404 (a 404 from the root-object probe means the container
is reachable); when the probe fails with any other status, `open` creates
the container and succeeds if `createIfMissing` is true (a creation failure
escapes unwrapped) and reports `OpenFailed` wrapping the probe failure if
`createIfMissing` is false. (As stated the claim is false: a 404 probe
failure with `createIfMissing = false` yields success, never `OpenFailed`
— see the counterexample.) -/
theorem c2_open_behavior (cim : Bool) (e e2 : JsError)
    (cr : Except JsError Unit) :
    S3Blockstore.openStore cim (.ok ()) cr = .ok ()
    ∧ (e.statusCode = some 404 → S3Blockstore.openStore cim (.error e) cr = .ok ())
    ∧ (¬ e.statusCode = some 404 →
        S3Blockstore.openStore true (.error e) (.ok ()) = .ok ())
    ∧ (¬ e.statusCode = some 404 →
        S3Blockstore.openStore true (.error e) (.error e2)
          = .error (.passthrough e2))
    ∧ (¬ e.statusCode = some 404 →
        S3Blockstore.openStore false (.error e) cr = .error (.openFailed e)) := by
  refine ⟨rfl, ?_, ?_, ?_, ?_⟩ <;>
    intro h <;> simp [S3Blockstore.openStore, h]

/-- C2 witness: the probe outcomes at concrete 404 and 500 errors. -/
theorem c2_witness :
    S3Blockstore.openStore false (.error err404) (.ok ()) = .ok ()
    ∧ S3Blockstore.openStore false (.error err500) (.ok ())
        = .error (.openFailed err500) :=
  ⟨(c2_open_behavior false err404 err404 (.ok ())).2.1 (by decide),
   (c2_open_behavior false err500 err500 (.ok ())).2.2.2.2 (by decide)⟩

/-- C2 counterexample: the probe fails (with status 404) and
`createIfMissing` is false, yet `open` succeeds silently — the claim
demands `OpenFailed` for a failing probe in this configuration under
either reading of which failures "indicate absence". -/
theorem c2_counterexample :
    S3Blockstore.openStore false (.error err404) (.ok ()) = .ok ()
    ∧ isOpenFailedResult (S3Blockstore.openStore false (.error err404) (.ok ()))
        = false := by
  decide

/-- C3, amended: when the signal is already cancelled and the underlying
call reports the Cancelled condition, `put` reports `WriteFailed` wrapping
it, `delete` reports `DeleteFailed` wrapping it, and `has` propagates it
unchanged; `getAll` ends the sequence with zero entries and no error only
when the listing call still completes (as with a collaborator that ignores
the signal) — when the listing call itself fails with the Cancelled
condition, `getAll` raises a generic wrapped error. (As stated the claim is
false on both counts: `put`/`delete` wrap rather than propagate, and a
Cancelled listing failure makes `getAll` throw — see the counterexample.) -/
theorem c3_cancellation (key : CID) (e : JsError)
    (strategy : ShardingStrategy) (pre : Option (List Char))
    (sendList : Option (List Char) → Except JsError (Option ListResp))
    (sendGet : List Char → Except JsError (Option S3Body))
    (fuel : Nat) (resp : Option ListResp)
    (_habort : e.aborted = true) (hhsc : e.httpStatusCode = none) :
    S3Blockstore.put key (.error e) = .error (.putFailed e)
    ∧ S3Blockstore.delete (.error e) = .error (.deleteFailed e)
    ∧ S3Blockstore.has (.error e) = .error (.passthrough e)
    ∧ (sendList none = .error e →
        S3Blockstore.getAll strategy pre sendList sendGet true (fuel + 1)
          = ([], some (.jsError e.code)))
    ∧ (sendList none = .ok resp →
        S3Blockstore.getAll strategy pre sendList sendGet true (fuel + 1)
          = ([], none)) := by
  refine ⟨rfl, rfl, ?_, ?_, ?_⟩
  · simp [S3Blockstore.has, hhsc]
  · intro h
    simp [S3Blockstore.getAll, S3Blockstore.getAllGo, h]
  · intro h
    simp [S3Blockstore.getAll, S3Blockstore.getAllGo, h]

/-- C3 witness: the cancellation outcomes at a concrete abort error, for
both a collaborator that rejects the aborted listing call and one that
resolves it. -/
theorem c3_witness :
    S3Blockstore.put cidV0ex (.error abortErr) = .error (.putFailed abortErr)
    ∧ S3Blockstore.has (.error abortErr) = .error (.passthrough abortErr)
    ∧ S3Blockstore.getAll (NextToLast.strategy {}) none
        (fun _ => .error abortErr) (fun _ => .error abortErr) true 1
        = ([], some (.jsError none))
    ∧ S3Blockstore.getAll (NextToLast.strategy {}) none
        (fun _ => .ok none) (fun _ => .error abortErr) true 1
        = ([], none) := by
  obtain ⟨h1, _h2, h3, h4, _⟩ := c3_cancellation cidV0ex abortErr
    (NextToLast.strategy {}) none (fun _ => .error abortErr)
    (fun _ => .error abortErr) 0 none rfl rfl
  obtain ⟨_, _, _, _, h5⟩ := c3_cancellation cidV0ex abortErr
    (NextToLast.strategy {}) none (fun _ => .ok none)
    (fun _ => .error abortErr) 0 none rfl rfl
  exact ⟨h1, h3, h4 rfl, h5 rfl⟩

/-- C3 counterexample: with the underlying call reporting the Cancelled
condition, `put` does not propagate it (it wraps it in `WriteFailed`), and
`getAll` does not end cleanly with zero entries (the wrapped failure
escapes). -/
theorem c3_counterexample :
    S3Blockstore.put cidV0ex (.error abortErr) ≠ .error (.passthrough abortErr)
    ∧ S3Blockstore.getAll (NextToLast.strategy {}) none
        (fun _ => .error abortErr) (fun _ => .error abortErr) true 1
        ≠ ([], none) := by
  refine ⟨by decide, by decide⟩

/-- C4, amended: `get` reports `NotFound` exactly when the underlying read
fails with `statusCode` 404 (success responses never produce it, including
the missing-body case, which raises a plain error re-raised unchanged);
every other failure of `get`, and every unrecognized failure of `has`, is
re-raised as-is; `getAll`, however, rethrows *every* failure — the listing
call's and the per-item processing's alike — as a fresh generic `Error`
carrying only the original error's `code` property as its message, not the
original error. (The claim's getAll part as stated is false — see the
counterexample.) -/
theorem c4_error_mapping (e : JsError) (body : S3Body)
    (strategy : ShardingStrategy) (pre : Option (List Char))
    (sendList : Option (List Char) → Except JsError (Option ListResp))
    (sendGet : List Char → Except JsError (Option S3Body))
    (fuel : Nat) (items : List (Option (List Char))) :
    S3Blockstore.get (.error e)
        = (if e.statusCode = some 404 then .error (.notFound e)
           else .error (.passthrough e))
    ∧ S3Blockstore.get (.ok (some body)) = .ok (s3BodyToBytes body)
    ∧ S3Blockstore.get (.ok none) = .error (.jsError (some "Response had no body"))
    ∧ (¬ e.httpStatusCode = some 404 → ¬ e.httpStatusCode = some 403 →
        S3Blockstore.has (.error e) = .error (.passthrough e))
    ∧ (sendList none = .error e →
        S3Blockstore.getAll strategy pre sendList sendGet false (fuel + 1)
          = ([], some (.jsError e.code)))
    ∧ (sendList none = .ok (some ⟨some items, false⟩) →
        S3Blockstore.getAll strategy pre sendList sendGet false (fuel + 1)
          = ((S3Blockstore.getAllItems strategy pre sendGet items).1,
             (S3Blockstore.getAllItems strategy pre sendGet items).2.map
               (fun ie => OpError.jsError ie.errCode))) := by
  refine ⟨?_, rfl, rfl, ?_, ?_, ?_⟩
  · by_cases h : e.statusCode = some 404 <;> simp [S3Blockstore.get, h]
  · intro h1 h2
    simp [S3Blockstore.has, h1, h2]
  · intro h
    simp [S3Blockstore.getAll, S3Blockstore.getAllGo, h]
  · intro h
    simp only [S3Blockstore.getAll, S3Blockstore.getAllGo, h]
    cases hr : (S3Blockstore.getAllItems strategy pre sendGet items).2 <;>
      simp [hr]

/-- C4 witness: the mappings at concrete errors — a 404 read maps to
`NotFound`, a 500 read passes through, a 500 probe of `has` passes
through, and a failing listing surfaces as a generic error carrying the
code text. -/
theorem c4_witness :
    S3Blockstore.get (.error err404)
        = (if err404.statusCode = some 404 then .error (.notFound err404)
           else .error (.passthrough err404))
    ∧ (S3Blockstore.has (.error err500) = .error (.passthrough err500))
    ∧ S3Blockstore.getAll (NextToLast.strategy {}) none
        (fun _ => .error err500) (fun _ => .error err500) false 1
        = ([], some (.jsError err500.code)) := by
  obtain ⟨h1, _, _, h4, h5, _⟩ := c4_error_mapping err404 (.bytes [])
    (NextToLast.strategy {}) none (fun _ => .error err500)
    (fun _ => .error err500) 0 []
  obtain ⟨_, _, _, h4', h5', _⟩ := c4_error_mapping err500 (.bytes [])
    (NextToLast.strategy {}) none (fun _ => .error err500)
    (fun _ => .error err500) 0 []
  exact ⟨h1, h4' (by decide) (by decide), h5' rfl⟩

/-- C4 counterexample: an unrecognized (500) listing failure is not
re-raised as-is by `getAll` — the caller sees a fresh generic error whose
message is the original `code` text, not the original error. -/
theorem c4_counterexample :
    S3Blockstore.getAll (NextToLast.strategy {}) none
        (fun _ => .error err500) (fun _ => .error err500) false 1
        = ([], some (.jsError (some "InternalError")))
    ∧ S3Blockstore.getAll (NextToLast.strategy {}) none
        (fun _ => .error err500) (fun _ => .error err500) false 1
        ≠ ([], some (.passthrough err500)) := by
  refine ⟨by decide, by decide⟩

/-- C5, confirmed: `has` returns `true` on probe success, `false` when the
probe fails with `$metadata.httpStatusCode` 404 or 403, and re-raises any
other probe failure. -/
theorem c5_has (e : JsError) :
    S3Blockstore.has (.ok ()) = .ok true
    ∧ (e.httpStatusCode = some 404 → S3Blockstore.has (.error e) = .ok false)
    ∧ (e.httpStatusCode = some 403 → S3Blockstore.has (.error e) = .ok false)
    ∧ (¬ e.httpStatusCode = some 404 → ¬ e.httpStatusCode = some 403 →
        S3Blockstore.has (.error e) = .error (.passthrough e)) := by
  refine ⟨rfl, ?_, ?_, ?_⟩
  · intro h
    simp [S3Blockstore.has, h]
  · intro h
    by_cases h4 : e.httpStatusCode = some 404 <;> simp [S3Blockstore.has, h, h4]
  · intro h1 h2
    simp [S3Blockstore.has, h1, h2]

/-- C5 witness: the three probe-failure outcomes at concrete 404, 403 and
500 errors. -/
theorem c5_witness :
    S3Blockstore.has (.error err404) = .ok false
    ∧ S3Blockstore.has (.error err403) = .ok false
    ∧ S3Blockstore.has (.error err500) = .error (.passthrough err500) :=
  ⟨(c5_has err404).2.1 (by decide),
   (c5_has err403).2.2.1 (by decide),
   (c5_has err500).2.2.2 (by decide) (by decide)⟩

/-- C6, confirmed: `put` wraps every underlying write failure in a
`WriteFailed` report carrying the cause — never a bare passthrough — and
returns the identifier it was given on success. -/
theorem c6_put (key : CID) (_val : List Nat) (e : JsError) :
    S3Blockstore.put key (.ok ()) = .ok key
    ∧ S3Blockstore.put key (.error e) = .error (.putFailed e)
    ∧ S3Blockstore.put key (.error e) ≠ .error (.passthrough e) := by
  refine ⟨rfl, rfl, ?_⟩
  simp [S3Blockstore.put]

/-- C7, confirmed: deleting through the repository's own S3 mock succeeds
for every storage state — whether or not the key is present, the
`DeleteObjectCommand` handler resolves — and any underlying failure is
wrapped in a `DeleteFailed` report carrying the cause. -/
theorem c7_delete (st : MockStorage) (k : List Char) (e : JsError) :
    S3Blockstore.delete (s3MockDelete st k).1 = .ok ()
    ∧ (mockHasKey st k = true → S3Blockstore.delete (s3MockDelete st k).1 = .ok ())
    ∧ (mockHasKey st k = false → S3Blockstore.delete (s3MockDelete st k).1 = .ok ())
    ∧ S3Blockstore.delete (.error e) = .error (.deleteFailed e) :=
  ⟨rfl, fun _ => rfl, fun _ => rfl, rfl⟩

/-- C7 witness: deleting a present key and an absent key both succeed. -/
theorem c7_witness :
    S3Blockstore.delete (s3MockDelete [(['k'], [1])] ['k']).1 = .ok ()
    ∧ S3Blockstore.delete (s3MockDelete [] ['k']).1 = .ok () :=
  ⟨(c7_delete [(['k'], [1])] ['k'] err404).2.1 (by decide),
   (c7_delete [] ['k'] err404).2.2.1 (by decide)⟩

/-- The shard directory (first `/`-separated segment) of a `NextToLast`
path is the last-`prefixLength`-characters slice of the encoded token. -/
theorem ntl_first_segment (t : NextToLast) (c : CID) (hbase : t.base = base32upper) :
    (jsSplit '/' (t.encode c)).headI
      = (base32upperEncode c.multihash.bytes).drop
          ((base32upperEncode c.multihash.bytes).length - t.prefixLength) := by
  unfold NextToLast.encode
  rw [hbase, base32upper_encoder]
  rw [jsSplit_append '/' _ _
    (fun x hx => base32upperEncode_no_slash _ x (List.drop_subset _ _ hx))]
  rfl

/-- C8, confirmed: under the prefix-shard strategy with the default codec,
the shard-prefix segment of an encoded path has length exactly
`prefixLength` (or the full token length when the token is shorter); two
identifiers whose trailing `prefixLength` token characters differ land in
different shard buckets; and with `prefixLength` 2 and extension `.data`,
an identifier whose token (under the configured codec) is `ABCDEFGH`
encodes to `GH/ABCDEFGH.data`. -/
theorem c8_shard_distribution :
    (∀ (t : NextToLast) (c : CID), t.base = base32upper →
      (jsSplit '/' (t.encode c)).headI
          = (base32upperEncode c.multihash.bytes).drop
              ((base32upperEncode c.multihash.bytes).length - t.prefixLength)
        ∧ ((jsSplit '/' (t.encode c)).headI).length
            = min t.prefixLength (base32upperEncode c.multihash.bytes).length)
    ∧ (∀ (t : NextToLast) (c1 c2 : CID), t.base = base32upper →
        (base32upperEncode c1.multihash.bytes).drop
            ((base32upperEncode c1.multihash.bytes).length - t.prefixLength)
          ≠ (base32upperEncode c2.multihash.bytes).drop
            ((base32upperEncode c2.multihash.bytes).length - t.prefixLength) →
        (jsSplit '/' (t.encode c1)).headI ≠ (jsSplit '/' (t.encode c2)).headI)
    ∧ (∀ (b : MultibaseCodec) (c : CID),
        b.encoder c.multihash.bytes = "ABCDEFGH".toList →
        NextToLast.encode ⟨".data".toList, 2, b⟩ c = "GH/ABCDEFGH.data".toList) := by
  refine ⟨?_, ?_, ?_⟩
  · intro t c hbase
    refine ⟨ntl_first_segment t c hbase, ?_⟩
    rw [ntl_first_segment t c hbase, List.length_drop]
    omega
  · intro t c1 c2 hbase hne
    rw [ntl_first_segment t c1 hbase, ntl_first_segment t c2 hbase]
    exact hne
  · intro b c htok
    simp only [NextToLast.encode, htok]
    decide

/-- C8 witness: the segment length at the default configuration, two
concrete identifiers with different trailing token characters in different
buckets, and the concrete `GH/ABCDEFGH.data` scenario. -/
theorem c8_witness :
    ((jsSplit '/' (NextToLast.encode {} cidV0ex)).headI).length
        = min 2 (base32upperEncode cidV0ex.multihash.bytes).length
    ∧ (jsSplit '/' (NextToLast.encode {} cidV0ex)).headI
        ≠ (jsSplit '/' (NextToLast.encode {} cidOnes)).headI
    ∧ NextToLast.encode ⟨".data".toList, 2, tokenABCCodec⟩ cidV0ex
        = "GH/ABCDEFGH.data".toList := by
  obtain ⟨p1, p2, p3⟩ := c8_shard_distribution
  exact ⟨(p1 {} cidV0ex rfl).2, p2 {} cidV0ex cidOnes rfl (by decide),
    p3 tokenABCCodec cidV0ex rfl⟩

/-- C9, confirmed: both strategies encode from `cid.multihash.bytes` alone,
so identifiers with identical multihash bytes (e.g. the same hash under
different CID versions or codecs) map to the same shard path and thus the
same object-store key. -/
theorem c9_encode_multihash_only (tn : NextToLast) (tf : FlatDirectory)
    (pre : Option (List Char)) (c1 c2 : CID)
    (h : c1.multihash.bytes = c2.multihash.bytes) :
    tn.encode c1 = tn.encode c2
    ∧ tf.encode c1 = tf.encode c2
    ∧ S3Blockstore.objectKey pre tn.strategy c1
        = S3Blockstore.objectKey pre tn.strategy c2 := by
  have h1 : tn.encode c1 = tn.encode c2 := by
    unfold NextToLast.encode
    rw [h]
  have h2 : tf.encode c1 = tf.encode c2 := by
    unfold FlatDirectory.encode
    rw [h]
  refine ⟨h1, h2, ?_⟩
  show (match pre with
      | some p => p ++ ['/']
      | none => "null".toList) ++ tn.encode c1
    = (match pre with
      | some p => p ++ ['/']
      | none => "null".toList) ++ tn.encode c2
  rw [h1]

/-- C9 witness: a CIDv0 and a CIDv1 `raw` identifier sharing one multihash
produce the same paths. -/
theorem c9_witness :
    NextToLast.encode {} cidV0ex = NextToLast.encode {} cidV1ex
    ∧ FlatDirectory.encode {} cidV0ex = FlatDirectory.encode {} cidV1ex
    ∧ S3Blockstore.objectKey none (NextToLast.strategy {}) cidV0ex
        = S3Blockstore.objectKey none (NextToLast.strategy {}) cidV1ex :=
  c9_encode_multihash_only {} {} none cidV0ex cidV1ex rfl

theorem decodeToken_errors (base : MultibaseCodec) (tok : List Char) :
    decodeToken base tok ≠ Except.error ShardDecodeError.invalidPath
    ∧ ∀ err, decodeToken base tok = Except.error err →
        err = ShardDecodeError.codecError ∨ err = ShardDecodeError.cidError := by
  unfold decodeToken
  cases h1 : base.decoder tok with
  | none =>
      refine ⟨by simp, fun err h => ?_⟩
      simp only [Except.error.injEq] at h
      exact Or.inl h.symm
  | some bytes =>
      have hred : (match some bytes with
          | none => Except.error ShardDecodeError.codecError
          | some bytes =>
            match CID.decode bytes with
            | none => Except.error ShardDecodeError.cidError
            | some cid => Except.ok cid)
          = (match CID.decode bytes with
            | none => Except.error ShardDecodeError.cidError
            | some cid => Except.ok cid) := rfl
      rw [hred]
      cases h2 : CID.decode bytes with
      | none =>
          refine ⟨by simp, fun err h => ?_⟩
          simp only [Except.error.injEq] at h
          exact Or.inr h.symm
      | some cid =>
          refine ⟨by simp, fun err h => ?_⟩
          simp at h

theorem shardPathDecode_errors (ext : List Char) (base : MultibaseCodec)
    (s : List Char) :
    shardPathDecode ext base s ≠ Except.error ShardDecodeError.invalidPath
    ∧ ∀ err, shardPathDecode ext base s = Except.error err →
        err = ShardDecodeError.codecError ∨ err = ShardDecodeError.cidError := by
  unfold shardPathDecode
  cases hL : (jsSplit '/' s).getLast? with
  | none =>
      exact absurd (List.getLast?_eq_none_iff.mp hL) (jsSplit_ne_nil '/' s)
  | some f => exact decodeToken_errors base _

/-- C10, confirmed: `split('/')` always yields at least one segment, so
`pop()` never returns `undefined` and the `Invalid path` branch of both
strategies' `decode` is unreachable; every `decode` failure comes from the
codec's decoder or from identifier parsing. -/
theorem c10_invalid_path_unreachable (tn : NextToLast) (tf : FlatDirectory)
    (s : List Char) :
    tn.decode s ≠ Except.error ShardDecodeError.invalidPath
    ∧ tf.decode s ≠ Except.error ShardDecodeError.invalidPath
    ∧ (∀ err, tn.decode s = Except.error err →
        err = ShardDecodeError.codecError ∨ err = ShardDecodeError.cidError)
    ∧ (∀ err, tf.decode s = Except.error err →
        err = ShardDecodeError.codecError ∨ err = ShardDecodeError.cidError) :=
  ⟨(shardPathDecode_errors tn.extension tn.base s).1,
   (shardPathDecode_errors tf.extension tf.base s).1,
   (shardPathDecode_errors tn.extension tn.base s).2,
   (shardPathDecode_errors tf.extension tf.base s).2⟩

/-- C10 witness: a concrete non-multibase path fails with a codec error,
never `Invalid path`. -/
theorem c10_witness :
    NextToLast.decode {} ['x'] ≠ Except.error ShardDecodeError.invalidPath
    ∧ (ShardDecodeError.codecError = ShardDecodeError.codecError
        ∨ ShardDecodeError.codecError = ShardDecodeError.cidError) :=
  ⟨(c10_invalid_path_unreachable {} {} ['x']).1,
   (c10_invalid_path_unreachable {} {} ['x']).2.2.1
     ShardDecodeError.codecError (by decide)⟩

end JsStores

